import Mathlib

/-
Verification of the statsd metric engine and its on-disk datastore.

This file gives a shallow embedding, in Lean 4, of the core functions of the
repository (statsd/server.go, statsd/fs_datastore.go and the unnamed parser
and timer-metric files), and proves or refutes the frozen claims about them.

Conventions of the embedding:
- Go int64 values are modelled as Int; Go integer division and remainder
  (which truncate toward zero) are Int.tdiv and Int.tmod.
- Go float64 values are modelled as Rat; NaN, which the code only produces
  as a fixed default, is modelled as the value none of Option Rat where it
  can occur.
- Go byte slices are modelled as List UInt8.
- Go parallel arrays (data []float64, cnt []float64) are modelled as a list
  of pairs, zipped in the order the code appends to them.
- strconv.ParseFloat is kept abstract: the parser is parameterised by a
  function pf : List UInt8 → Option Rat standing for it, so every theorem
  holds for every float-parsing function.
- fallible Go code returns Except; a Go nil-pointer dereference is a
  distinguished outcome constructor.
-/

namespace StatsdV

/-- MetricType enumeration (Counter, Gauge, Avg, Timer). -/
inductive MetricType where
  | counter
  | gauge
  | avg
  | timer
deriving DecidableEq, Repr

/-- Record as stored by the datastore: Ts int64, Value float64. -/
structure Record where
  ts : Int
  value : Rat
deriving DecidableEq, Repr

/-- Errors of the statsd core (the Error string constants of the source). -/
inductive GoErr where
  | noName
  | noType
  | noValue
  | noSampling
  | nameInvalid
  | typeInvalid
  | valueInvalid
  | samplingInvalid
  | noData
  | invalidIdxData
  | ioErr
  | invalidParam
  | alreadyRunning
  | notDir
deriving DecidableEq, Repr

/-- Metric record produced by ParseMetric: Name, Type, Value, SampleRate. -/
structure Metric where
  name : List UInt8
  type : MetricType
  value : Rat
  sampleRate : Rat
deriving DecidableEq, Repr

/-- Ts formula of Server.Watch (server.go line 548):
w.Ts = me.lastTick - ((me.lastTick-offs)%gran+gran)%gran with Go remainder. -/
def watchTs (lastTick offs gran : Int) : Int :=
  lastTick - (((lastTick - offs).tmod gran + gran).tmod gran)

/-- Name scan of ParseMetric: the loop looking for the first ':' in m,
rejecting '/' (47) and NUL (0) seen before it.  Returns the index of the
first ':' (58) or none when there is no ':'. -/
def scanName : List UInt8 → Except GoErr (Option Nat)
  | [] => .ok none
  | ch :: rest =>
    if ch = 58 then .ok (some 0)
    else if ch = 47 ∨ ch = 0 then .error .nameInvalid
    else (scanName rest).map (fun o => o.map (· + 1))

/-- Type-token recognition of ParseMetric (lines 196-208): a one-byte token
c/g/a or the two-byte token ms, n being the token length. -/
def typeOf (m : List UInt8) (n : Nat) : Option MetricType :=
  if n = 1 then
    match m.getD 0 0 with
    | 99 => some .counter
    | 103 => some .gauge
    | 97 => some .avg
    | _ => none
  else if n = 2 then
    if m.getD 0 0 = 109 ∧ m.getD 1 0 = 115 then some .timer
    else none
  else none

/-- Type-and-sampling phase of ParseMetric (unnamed parser file, lines
186-229): m is what follows the second separator; the next '|' (or end of
input) delimits the type token, which must be c, g, a or ms; an optional
"|@RATE" suffix must parse as a strictly positive float, defaulting to 1. -/
def parseTypeRate (pf : List UInt8 → Option Rat) (name : List UInt8)
    (value : Rat) (m : List UInt8) : Except GoErr Metric :=
  let n := (m.findIdx? (· = 124)).getD m.length
  match typeOf m n with
  | none => .error .typeInvalid
  | some typ =>
    if n = m.length then .ok ⟨name, typ, value, 1⟩
    else if n = m.length - 1 then .error .noSampling
    else if m.getD (n + 1) 0 ≠ 64 then .error .samplingInvalid
    else
      match pf (m.drop (n + 2)) with
      | none => .error .samplingInvalid
      | some s =>
        if s ≤ 0 then .error .samplingInvalid
        else .ok ⟨name, typ, value, s⟩

/-- ParseMetric (unnamed parser file, lines 146-230), parameterised by the
float parser pf standing for strconv.ParseFloat.  The byte values used by
the source: ':' 58, '|' 124, '@' 64, 'c' 99, 'g' 103, 'a' 97, 'm' 109,
's' 115.  The Go n = -1 outcome of the separator searches is the none case
of scanName and findIdx?. -/
def parseMetric (pf : List UInt8 → Option Rat) (m : List UInt8) :
    Except GoErr Metric :=
  if m = [] then .error .noName
  else
    match scanName m with
    | .error e => .error e
    | .ok none => .error .noValue
    | .ok (some n) =>
      if n = 0 then .error .noName
      else if n = m.length - 1 then .error .noValue
      else
        let name := m.take n
        let m := m.drop (n + 1)
        let nOpt := m.findIdx? (· = 124)
        if nOpt = some 0 then .error .noValue
        else
          match nOpt with
          | none => .error .noType
          | some n =>
            if n = m.length - 1 then .error .noType
            else
              match pf (m.take n) with
              | none => .error .valueInvalid
              | some value => parseTypeRate pf name value (m.drop (n + 1))

/-- Wire tokens of the four metric types and the MetricType each denotes. -/
def typeTable : List (List UInt8 × MetricType) :=
  [([99], .counter), ([103], .gauge), ([97], .avg), ([109, 115], .timer)]

/-- Concrete float parser used by witnesses: the token "3" (byte 51) parses
to 3, the token "0.5" (bytes 48 46 53) parses to 1/2. -/
def pfW : List UInt8 → Option Rat :=
  fun l => if l = [51] then some 3 else if l = [48, 46, 53] then some (1/2) else none

/-- Pair sort of timerStats: sort.Sort(&timerSorter{data, cnt}) orders the
(value, weight) pairs ascending by value (timerSorter.Less compares data). -/
def sortPairs (l : List (Rat × Rat)) : List (Rat × Rat) :=
  l.mergeSort (fun p q => decide (p.1 ≤ q.1))

/-- Accumulator of the scan of timerStats: the running cumulative weight m
and the current quart1/median/quart3 values (Go zero value 0 initially). -/
structure QuartAcc where
  m : Rat
  q1 : Rat
  q2 : Rat
  q3 : Rat
deriving DecidableEq, Repr

/-- Scan loop of timerStats (timer file lines 736-747): walking the sorted
pairs, each quantile field is set at the step where the cumulative weight
first reaches or crosses its target (n/4, n/2, 3n/4). -/
def quartScan (n : Rat) : List (Rat × Rat) → QuartAcc → QuartAcc
  | [], acc => acc
  | (v, c) :: rest, acc =>
    quartScan n rest
      ⟨acc.m + c,
       if acc.m + c ≥ n * (1/4) ∧ acc.m < n * (1/4) then v else acc.q1,
       if acc.m + c ≥ n * (1/2) ∧ acc.m < n * (1/2) then v else acc.q2,
       if acc.m + c ≥ n * (3/4) ∧ acc.m < n * (3/4) then v else acc.q3⟩

/-- timerStats (timer file lines 726-749).  The NaN entries of the empty
case are modelled as none; the weighted observations are the zip of the Go
parallel slices data and cnt. -/
def timerStats (obs : List (Rat × Rat)) : List (Option Rat) :=
  match obs with
  | [] => [none, none, none, none, none, some 0]
  | _ =>
    let n := (obs.map Prod.snd).sum
    let sorted := sortPairs obs
    let acc := quartScan n sorted ⟨0, 0, 0, 0⟩
    [some (sorted.headI.1), some acc.q1, some acc.q2, some acc.q3,
     some (sorted.getLastI.1), some n]

/-- State of timerMetric: the tick-local buffer and the minute-local buffer,
each a list of (value, weight) pairs. -/
structure TimerMetric where
  tickObs : List (Rat × Rat)
  obs : List (Rat × Rat)
deriving DecidableEq, Repr

/-- timerMetric.inject: appends (metric.Value, 1/metric.SampleRate). -/
def TimerMetric.inject (m : TimerMetric) (value sampleRate : Rat) : TimerMetric :=
  ⟨m.tickObs ++ [(value, 1 / sampleRate)], m.obs⟩

/-- timerMetric.tick: stats over the tick buffer, which is then drained into
the minute buffer. -/
def TimerMetric.tick (m : TimerMetric) : List (Option Rat) × TimerMetric :=
  (timerStats m.tickObs, ⟨[], m.obs ++ m.tickObs⟩)

/-- timerMetric.flush: stats over the minute buffer, which is then cleared. -/
def TimerMetric.flush (m : TimerMetric) : List (Option Rat) × TimerMetric :=
  (timerStats m.obs, ⟨m.tickObs, []⟩)

/-- Specification-side quantile rule, stated from the spec text: the first
value of the list whose cumulative weight (starting at m) reaches or crosses
the target t; none when the cumulative weight never reaches it. -/
def firstCross (t : Rat) : Rat → List (Rat × Rat) → Option Rat
  | _, [] => none
  | m, (v, c) :: rest => if t ≤ m + c then some v else firstCross t (m + c) rest

/-- Single-target projection of the quartScan loop, used to reason about
the three quantile fields one at a time. -/
def scan1 (t : Rat) : List (Rat × Rat) → Rat → Rat → Rat
  | [], _, acc => acc
  | (v, c) :: rest, m, acc =>
    scan1 t rest (m + c) (if t ≤ m + c ∧ m < t then v else acc)

/-- Total weight of a weighted observation list (the n loop of timerStats). -/
def wsum (l : List (Rat × Rat)) : Rat := (l.map Prod.snd).sum

/-- Mutable per-stream sizes and last written timestamp of fsDsStream, as
copied at the top of writeTail. -/
structure WtState where
  dsize : Int
  isize : Int
  lastWr : Int
deriving DecidableEq, Repr

/-- Result of running the writeTail loop: the final sizes and lastWr, the
values appended to the .dat buffer, the (ts, pos) entries appended to the
.idx buffer, and the timestamps the appended values carry on disk per the
index reconstruction rule (the value of lastWr as each value is written). -/
structure WtOut where
  state : WtState
  dat : List Rat
  idx : List (Int × Int)
  tss : List Int
deriving DecidableEq, Repr

/-- Loop body of fsDsStream.writeTail (fs_datastore.go lines 855-874) for a
single tail record: skip it when its timestamp is not a multiple of 60 or
not past lastWr; otherwise append the value, advance lastWr by one minute,
and on a skip ahead also append an index entry and jump lastWr. -/
def writeTailStep (s : WtState) (r : Record) :
    WtState × Option (Rat × Int) × Option (Int × Int) :=
  if r.ts.tmod 60 ≠ 0 ∨ s.lastWr ≥ r.ts then (s, none, none)
  else
    let dsize := s.dsize + 8
    let lastWr := s.lastWr + 60
    if r.ts > lastWr then
      (⟨dsize, s.isize + 16, r.ts⟩, some (r.value, r.ts), some (r.ts, dsize - 8))
    else
      (⟨dsize, s.isize, lastWr⟩, some (r.value, lastWr), none)

/-- Full writeTail loop over the tail records. -/
def writeTailRun (s : WtState) : List Record → WtOut
  | [] => ⟨s, [], [], []⟩
  | r :: rest =>
    let step := writeTailStep s r
    let out := writeTailRun step.1 rest
    ⟨out.state,
     (step.2.1.map Prod.fst).toList ++ out.dat,
     step.2.2.toList ++ out.idx,
     (step.2.1.map Prod.snd).toList ++ out.tss⟩

/-- fsDsSnapshot: the copied tail, the contents of the .idx file as 16-byte
(ts, pos) entries, the contents of the .dat file as 8-byte values, and the
lastWr of the stream at snapshot time. -/
structure Snap where
  tail : List Record
  idx : List (Int × Int)
  dat : List Rat
  lastWr : Int
deriving DecidableEq, Repr

/-- Size in bytes of the snapshot's index file. -/
def Snap.isize (s : Snap) : Int := 16 * s.idx.length

/-- Size in bytes of the snapshot's data file. -/
def Snap.dsize (s : Snap) : Int := 8 * s.dat.length

/-- readIdxEntry (lines 1046-1058): seek to 16-byte entry n and read
(ts, pos); a read past the end of the file fails, and an entry whose
timestamp is not a multiple of 60 or whose position is not a multiple of 8
is rejected as invalid index data. -/
def readIdxEntry (s : Snap) (n : Nat) : Except GoErr (Int × Int) :=
  match s.idx.get? n with
  | none => .error .ioErr
  | some (t, p) =>
    if t.tmod 60 ≠ 0 ∨ p.tmod 8 ≠ 0 then .error .invalidIdxData else .ok (t, p)

/-- Loop of fsDsSnapshot.findTail (lines 1030-1044): forward scan of the
tail that skips records the writer would skip, remembers the index of the
last acceptable record with ts ≤ bound, and stops at the first acceptable
record past the bound. -/
def findTailLoop (ts : Int) : List Record → Int → Option Nat → Nat → Option Nat
  | [], _, k, _ => k
  | r :: rest, last, k, i =>
    if r.ts.tmod 60 ≠ 0 ∨ last ≥ r.ts then findTailLoop ts rest last k (i + 1)
    else if r.ts ≤ ts then findTailLoop ts rest r.ts (some i) (i + 1)
    else k

/-- fsDsSnapshot.findTail; the Go -1 result is modelled as none. -/
def Snap.findTail (s : Snap) (ts : Int) : Option Nat :=
  findTailLoop ts s.tail s.lastWr none 0

/-- Binary-search loop of fsDsSnapshot.findIdx (lines 997-1026) over index
entries i..j.  The Go assignment j = k-1 can reach -1 and end the loop; on
Nat the truncated j = 0 ends the loop with the same returned i. -/
def findIdxLoop (s : Snap) (ts : Int) (i j : Nat) : Except GoErr Nat :=
  if i < j then
    let k := (i + j) / 2
    match readIdxEntry s k with
    | .error e => .error e
    | .ok (t, _) =>
      if t = ts then .ok k
      else if t > ts then findIdxLoop s ts i (k - 1)
      else if i ≠ k then findIdxLoop s ts k j
      else
        match readIdxEntry s j with
        | .error e => .error e
        | .ok (x, _) => if x > ts then .ok i else .ok j
  else .ok i
termination_by j - i
decreasing_by
  all_goals simp_wf
  all_goals omega

/-- fsDsSnapshot.findIdx (lines 983-1028); the Go -1 result is none. -/
def Snap.findIdx (s : Snap) (ts : Int) : Except GoErr (Option Nat) :=
  if s.isize = 0 then .ok none
  else
    match readIdxEntry s 0 with
    | .error e => .error e
    | .ok (first, _) =>
      if first > ts then .ok none
      else (findIdxLoop s ts 0 (s.idx.length - 1)).map some

/-- Read of the float64 at byte offset pos of the .dat file (the Seek plus
binary.Read at the end of LatestBefore).  The file is a sequence of 8-byte
values, so the reads that denote a stored value are the aligned in-bounds
ones; any other read fails. -/
def readDat (s : Snap) (pos : Int) : Except GoErr Rat :=
  if h : 0 ≤ pos ∧ pos.tmod 8 = 0 ∧ (pos.tdiv 8).toNat < s.dat.length then
    .ok (s.dat.get ⟨(pos.tdiv 8).toNat, h.2.2⟩)
  else .error .ioErr

/-- FsDatastore.LatestBefore (fs_datastore.go lines 592-643) acting on a
snapshot: round ts down with the Go remainder, search the tail, otherwise
binary-search the index, and read the value at the LAST position of the
chosen index segment (end of file for the final entry, else the position of
the next entry minus 8). -/
def latestBefore (s : Snap) (ts0 : Int) : Except GoErr Record :=
  let ts := ts0 - ts0.tmod 60
  match s.findTail ts with
  | some n => .ok (s.tail.getD n ⟨0, 0⟩)
  | none =>
    match s.findIdx ts with
    | .error e => .error e
    | .ok none => .error .noData
    | .ok (some n) =>
      match readIdxEntry s n with
      | .error e => .error e
      | .ok (t, pos) =>
        let lastPosE : Except GoErr Int :=
          if (n : Int) = s.isize.tdiv 16 - 1 then .ok (s.dsize - 8)
          else
            match readIdxEntry s (n + 1) with
            | .error e => .error e
            | .ok (_, p) => .ok (p - 8)
        match lastPosE with
        | .error e => .error e
        | .ok lastPos =>
          match readDat s lastPos with
          | .error e => .error e
          | .ok val => .ok ⟨t + 60 * ((lastPos - pos).tdiv 8), val⟩

/-- Outcome of a call to FsDatastore.Query: a record list, an error, or a
nil-pointer dereference. -/
inductive QueryOutcome where
  | ok (recs : List Record)
  | fail (e : GoErr)
  | nilDeref
deriving DecidableEq, Repr

/-- FsDatastore.Query (fs_datastore.go lines 579-590).  The body is a TODO
stub: s, err := makeSnapshot(name); if s != nil it immediately returns an
empty slice (err is nil on that path); if s == nil the deferred s.close()
dereferences a nil pointer. -/
def queryGo (snap : Except GoErr Snap) : QueryOutcome :=
  match snap with
  | .ok _ => .ok []
  | .error _ => .nilDeref

/-- Little-endian read of 8 bytes as a Nat (one binary.Read of a 64-bit
quantity from the buffered reader), returning the rest of the stream; a
short read fails like binary.Read at end of file. -/
def readLE8 : List UInt8 → Option (Nat × List UInt8)
  | b0 :: b1 :: b2 :: b3 :: b4 :: b5 :: b6 :: b7 :: rest =>
    some (b0.toNat + 2 ^ 8 * b1.toNat + 2 ^ 16 * b2.toNat + 2 ^ 24 * b3.toNat +
          2 ^ 32 * b4.toNat + 2 ^ 40 * b5.toNat + 2 ^ 48 * b6.toNat +
          2 ^ 56 * b7.toNat, rest)
  | _ => none

/-- Two's-complement reading of a 64-bit pattern as a Go int64. -/
def toI64 (n : Nat) : Int := if n < 2 ^ 63 then (n : Int) else (n : Int) - 2 ^ 64

/-- binary.Read of an int64. -/
def readI64 (l : List UInt8) : Option (Int × List UInt8) :=
  (readLE8 l).map (fun p => (toI64 p.1, p.2))

/-- binary.Read into a byte slice of length k. -/
def readBytes (k : Nat) (l : List UInt8) : Option (List UInt8 × List UInt8) :=
  if k ≤ l.length then some (l.take k, l.drop k) else none

/-- Tail record as read back from the checkpoint: int64 ts plus the raw
64-bit pattern of the float64 value, kept uninterpreted. -/
structure TailRec where
  ts : Int
  bits : Nat
deriving DecidableEq, Repr

/-- binary.Read of one fsDsRecord (int64 ts, float64 value). -/
def readTailRec (l : List UInt8) : Option (TailRec × List UInt8) :=
  match readI64 l with
  | none => none
  | some (ts, l) =>
    match readLE8 l with
    | none => none
    | some (bits, l) => some (⟨ts, bits⟩, l)

/-- binary.Read into a record slice of length k. -/
def readTailRecs : Nat → List UInt8 → Option (List TailRec × List UInt8)
  | 0, l => some ([], l)
  | k + 1, l =>
    match readTailRec l with
    | none => none
    | some (r, l) =>
      match readTailRecs k l with
      | none => none
      | some (rs, l) => some (r :: rs, l)

/-- Outcome of FsDatastore.loadTails: the streams read from the checkpoint,
an I/O error, or a runtime panic (a negative length handed to make). -/
inductive LoadOutcome where
  | ok (streams : List (List UInt8 × List TailRec))
  | ioFail
  | crash
deriving DecidableEq, Repr

/-- Stream-reading loop of loadTails (fs_datastore.go lines 819-837), fuel
being the number of remaining iterations i < ntails. -/
def loadLoop : Nat → List UInt8 → List (List UInt8 × List TailRec) → LoadOutcome
  | 0, _, acc => .ok acc
  | n + 1, bytes, acc =>
    match readI64 bytes with
    | none => .ioFail
    | some (lname, bytes) =>
      match readI64 bytes with
      | none => .ioFail
      | some (ltail, bytes) =>
        if lname < 0 ∨ ltail < 0 then .crash
        else
          match readBytes lname.toNat bytes with
          | none => .ioFail
          | some (name, bytes) =>
            match readTailRecs ltail.toNat bytes with
            | none => .ioFail
            | some (tail, bytes) => loadLoop n bytes (acc ++ [(name, tail)])

/-- FsDatastore.loadTails (fs_datastore.go lines 800-843).  An absent
tail_data file is not an error: the datastore starts with no tails. -/
def loadTailsGo (file : Option (List UInt8)) : LoadOutcome :=
  match file with
  | none => .ok []
  | some bytes =>
    match readI64 bytes with
    | none => .ioFail
    | some (ntails, bytes) => loadLoop ntails.toNat bytes []

/-- Datastore directory as Open sees it: whether the path is a directory,
and the contents of the tail_data file when present. -/
structure DsDir where
  isDir : Bool
  tailData : Option (List UInt8)
deriving DecidableEq, Repr

/-- Outcome of FsDatastore.Open. -/
inductive OpenOutcome where
  | started (streams : List (List UInt8 × List TailRec))
  | failed (e : GoErr)
  | crash
deriving DecidableEq, Repr

/-- Result of FsDatastore.Open: its outcome, the running flag after the
call, and the directory contents after the call. -/
structure OpenResult where
  outcome : OpenOutcome
  running : Bool
  dirAfter : DsDir
deriving DecidableEq, Repr

/-- FsDatastore.Open (fs_datastore.go lines 503-538): refuse when already
running or when the path is not a directory; load the tail checkpoint; a
load failure is propagated and the datastore does not start.  Open never
writes to or removes tail_data. -/
def openGo (d : DsDir) (running : Bool) : OpenResult :=
  if running then ⟨.failed .alreadyRunning, running, d⟩
  else if ¬d.isDir then ⟨.failed .notDir, false, d⟩
  else
    match loadTailsGo d.tailData with
    | .ok streams => ⟨.started streams, true, d⟩
    | .ioFail => ⟨.failed .ioErr, false, d⟩
    | .crash => ⟨.crash, false, d⟩

/-- Entry state read by Server.LiveLog: one 600-slot ring per channel (a
slot-indexed map), the write cursor livePtr, and lastTick. -/
structure EntryRing where
  logs : List (Nat → Rat)
  ptr : Nat
  lastTick : Int

/-- Matrix construction of Server.LiveLog (server.go lines 377-391): rows
ptr..599 of the ring first, then rows 0..ptr-1. -/
def liveLogRows (logs : List (Nat → Rat)) (ptr : Nat) : List (List Rat) :=
  ((List.range' ptr (600 - ptr)).map fun i => logs.map fun l => l i) ++
  ((List.range ptr).map fun i => logs.map fun l => l i)

/-- Server.LiveLog (server.go lines 360-394) on a located entry: the ring
in chronological order and the timestamp me.lastTick - LiveLogSize of the
first row. -/
def liveLogGo (e : EntryRing) : List (List Rat) × Int :=
  (liveLogRows e.logs e.ptr, e.lastTick - 600)

/-- Rings of a freshly created entry (createMetricEntry, server.go lines
181-205): every slot of channel c holds that channel's default, and the
write cursor starts at 0. -/
def freshEntry (defaults : List Rat) (lastTick : Int) : EntryRing :=
  ⟨defaults.map fun d _ => d, 0, lastTick⟩

/-- Record-cursor advance of feedAggregator: drop records before ts. -/
def feedAdvance (ts : Int) (recs : List Record) : List Record :=
  recs.dropWhile (fun r => decide (r.ts < ts))

/-- One minute of feedAggregator (server.go lines 466-480): each channel
cursor advances; a channel whose head record is exactly at ts contributes
its value to tmp, any other channel leaves tmp stale and marks the minute
missing. -/
def feedMinute (ts : Int) : List (List Record × Rat) → List (List Record × Rat) × Bool
  | [] => ([], false)
  | (recs, tk) :: rest =>
    let recs := feedAdvance ts recs
    let out := feedMinute ts rest
    match recs.head? with
    | some r =>
      if r.ts = ts then ((recs, r.value) :: out.1, out.2)
      else ((recs, tk) :: out.1, true)
    | none => ((recs, tk) :: out.1, true)

/-- Minute loop of feedAggregator, with the iteration count as fuel; a put
happens only for minutes where no channel is missing. -/
def feedLoop {σ : Type} (put : σ → List Rat → σ) :
    Nat → σ → List (List Record × Rat) → Int → σ × List (List Record × Rat)
  | 0, a, chans, _ => (a, chans)
  | n + 1, a, chans, ts =>
    let ts := ts + 60
    let step := feedMinute ts chans
    let a := if step.2 then a else put a (step.1.map Prod.snd)
    feedLoop put n a step.1 ts

/-- feedAggregator (server.go lines 463-482): the loop for j = 0, 60, ...
while j < gran runs max(0, ceil(gran/60)) times. -/
def feedAggregator {σ : Type} (put : σ → List Rat → σ) (a : σ)
    (chans : List (List Record × Rat)) (ts gran : Int) :
    σ × List (List Record × Rat) :=
  feedLoop put (((gran + 59).tdiv 60).toNat) a chans ts

/-- Output loop of Server.Log (server.go lines 437-442): feed one window,
advance ts by gran, emit aggr.get(). -/
def buildRows {σ : Type} (put : σ → List Rat → σ) (get : σ → List Rat)
    (gran : Int) : Nat → σ → List (List Record × Rat) → Int → List (List Rat)
  | 0, _, _, _ => []
  | n + 1, a, chans, ts =>
    let step := feedAggregator put a chans ts gran
    get step.1 :: buildRows put get gran n step.1 step.2 (ts + gran)

/-- Server.Log (server.go lines 396-445) with the metric-type registry and
the aggregator kept abstract: put/get/ainit are the aggregator operations
and its state as seeded by initAggregator, queryFn gives the datastore
answer for each of the nChans aggregator channels, and persistCount is the
number of persisted channels (those whose default is read back with
LatestBefore).  The second component of a successful result counts the
datastore operations performed (the Query and LatestBefore calls of
initAggregator); the early return for a clamped non-positive length makes
none. -/
def serverLog {σ : Type} (put : σ → List Rat → σ) (get : σ → List Rat)
    (ainit : σ) (lastTick fromTs length gran : Int)
    (queryFn : Nat → List Record) (nChans persistCount : Nat) :
    Except GoErr (List (List Rat) × Nat) :=
  if fromTs.tmod 60 ≠ 0 then .error .invalidParam
  else if gran < 1 then .error .invalidParam
  else if gran.tmod 60 ≠ 0 then .error .invalidParam
  else if length < 0 then .error .invalidParam
  else
    let maxLength := (lastTick - fromTs).tdiv gran
    let len2 := if length > maxLength then maxLength else length
    if len2 ≤ 0 then .ok ([], 0)
    else
      let input := (List.range nChans).map queryFn
      let chans := input.map (fun r => (r, (0 : Rat)))
      .ok (buildRows put get gran len2.toNat ainit chans fromTs,
           nChans + persistCount)

/-! Helper lemmas on the Go truncated remainder. -/

theorem neg_tmod_eq (a g : Int) : (-a).tmod g = -(a.tmod g) := by
  rw [Int.tmod_def, Int.tmod_def, Int.neg_tdiv]
  ring

theorem tmod_gt_neg (a g : Int) (hg : 0 < g) : -g < a.tmod g := by
  rcases le_or_lt 0 a with h | h
  · have h1 := Int.tmod_nonneg g h
    omega
  · have h1 : (-a).tmod g < g := Int.tmod_lt_of_pos _ hg
    have h2 := neg_tmod_eq a g
    omega

theorem tmod_dvd_sub (a g : Int) : g ∣ a - a.tmod g := by
  refine ⟨a.tdiv g, ?_⟩
  rw [Int.tmod_def]
  ring

theorem align_emod (a g : Int) (hg : 0 < g) :
    (a.tmod g + g).tmod g = a % g := by
  have h1 : -g < a.tmod g := tmod_gt_neg a g hg
  have h3 : 0 ≤ a.tmod g + g := by omega
  rw [Int.tmod_eq_emod h3 (le_of_lt hg)]
  have h5 : (a.tmod g + g) % g = (a.tmod g) % g := by
    have := Int.add_mul_emod_self_left (a.tmod g) g 1
    rwa [Int.mul_one] at this
  rw [h5, Int.emod_eq_emod_iff_emod_sub_eq_zero]
  exact Int.emod_eq_zero_of_dvd (dvd_sub_comm.mp (tmod_dvd_sub a g))

/-- C5: for every successful Watch(name, channels, offs, gran) with offs a
multiple of 60 and gran a positive multiple of 60, and for every value of
the entry's last_tick, the watcher's initial timestamp Ts computed by the
formula of server.go line 548 is the largest t ≤ last_tick with
(t − offs) mod gran == 0. -/
theorem watch_initial_ts_greatest (lastTick offs gran : Int)
    (ho : offs.tmod 60 = 0) (hg60 : gran.tmod 60 = 0) (hg : 0 < gran) :
    (watchTs lastTick offs gran - offs).tmod gran = 0 ∧
      watchTs lastTick offs gran ≤ lastTick ∧
      ∀ t : Int, t ≤ lastTick → (t - offs).tmod gran = 0 →
        t ≤ watchTs lastTick offs gran := by
  have hkey : watchTs lastTick offs gran =
      lastTick - (lastTick - offs) % gran := by
    unfold watchTs
    rw [align_emod _ _ hg]
  set a := lastTick - offs with ha
  have hge : 0 ≤ a % gran := Int.emod_nonneg a (by omega)
  have hlt : a % gran < gran := Int.emod_lt_of_pos a hg
  have hdm : gran * (a / gran) + a % gran = a := Int.ediv_add_emod a gran
  refine ⟨?_, ?_, ?_⟩
  · rw [hkey]
    have : lastTick - a % gran - offs = gran * (a / gran) := by omega
    rw [this]
    exact Int.mul_tmod_right gran _
  · rw [hkey]
    omega
  · intro t ht hmod
    rw [hkey]
    obtain ⟨k, hk⟩ := Int.dvd_of_tmod_eq_zero hmod
    have h1 : gran * k ≤ a := by omega
    have h2 : gran * k < gran * (a / gran + 1) := by
      have : gran * (a / gran + 1) = gran * (a / gran) + gran := by ring
      omega
    have h3 : k < a / gran + 1 := lt_of_mul_lt_mul_left h2 (le_of_lt hg)
    have h4 : gran * k ≤ gran * (a / gran) :=
      mul_le_mul_of_nonneg_left (by omega) (le_of_lt hg)
    omega

/-- Witness for C5 at lastTick = 125, offs = 0, gran = 60. -/
theorem watch_initial_ts_greatest_witness :
    (0 : Int).tmod 60 = 0 ∧ (60 : Int).tmod 60 = 0 ∧ (0 : Int) < 60 ∧
      ((watchTs 125 0 60 - 0).tmod 60 = 0 ∧ watchTs 125 0 60 ≤ 125 ∧
        ∀ t : Int, t ≤ 125 → (t - 0).tmod 60 = 0 → t ≤ watchTs 125 0 60) :=
  ⟨by decide, by decide, by decide,
    watch_initial_ts_greatest 125 0 60 (by decide) (by decide) (by decide)⟩

/-- C1: the claim that Query returns exactly the records of the window is
wrong on this code: Query is a TODO stub, so every call with a live
snapshot returns the empty list.  In particular after Insert of (60, 5)
and a writer drain (the snapshot holds the record on disk), the window
(60, 61) comes back empty instead of containing the record. -/
theorem query_stub_always_empty :
    (∀ s : Snap, queryGo (.ok s) = .ok []) ∧
      queryGo (.ok ⟨[], [(60, 0)], [5], 60⟩) = .ok [] ∧
      (⟨60, 5⟩ : Record) ∉ ([] : List Record) :=
  ⟨fun _ => rfl, rfl, by simp⟩

/-- C9 counterexample: a datastore directory whose tail_data holds the
single byte 0x01 makes loadTails fail; Open then returns the error, the
datastore is NOT running afterwards, and the file is NOT deleted — the
claim says Open deletes the file and starts running. -/
theorem open_loadfail_counterexample :
    (openGo ⟨true, some [1]⟩ false).running = false ∧
      (openGo ⟨true, some [1]⟩ false).dirAfter.tailData = some [1] ∧
      (openGo ⟨true, some [1]⟩ false).outcome = .failed .ioErr := by
  decide

/-- C9 amended: for every datastore directory containing a tail_data file
whose load fails with an I/O error, Open propagates the error, the
datastore does not start (running stays false), and the checkpoint file is
left in place. -/
theorem open_loadfail_amended (d : DsDir) (hdir : d.isDir = true)
    (hfail : loadTailsGo d.tailData = .ioFail) :
    openGo d false = ⟨.failed .ioErr, false, d⟩ := by
  unfold openGo
  simp [hdir, hfail]

/-- Witness for the amended C9 at the one-byte checkpoint file. -/
theorem open_loadfail_amended_witness :
    (⟨true, some [1]⟩ : DsDir).isDir = true ∧
      loadTailsGo (some [1]) = .ioFail ∧
      openGo ⟨true, some [1]⟩ false = ⟨.failed .ioErr, false, ⟨true, some [1]⟩⟩ :=
  ⟨rfl, by decide, open_loadfail_amended ⟨true, some [1]⟩ rfl (by decide)⟩

theorem buildRows_length {σ : Type} (put : σ → List Rat → σ)
    (get : σ → List Rat) (gran : Int) :
    ∀ (n : Nat) (a : σ) (chans : List (List Record × Rat)) (ts : Int),
      (buildRows put get gran n a chans ts).length = n := by
  intro n
  induction n with
  | zero => intro a chans ts; rfl
  | succ k ih => intro a chans ts; simp [buildRows, ih]

/-- C6: every Log call that passes validation returns a matrix of L rows
with L ≤ length and L ≤ max(0, (last_tick − from)/gran); when the clamped
length is not positive (in particular when length = 0) the result is empty
and no datastore operation is performed. -/
theorem log_rows_clamped {σ : Type} (put : σ → List Rat → σ)
    (get : σ → List Rat) (ainit : σ) (lastTick fromTs length gran : Int)
    (queryFn : Nat → List Record) (nChans persistCount : Nat)
    (h1 : fromTs.tmod 60 = 0) (h2 : 1 ≤ gran) (h3 : gran.tmod 60 = 0)
    (h4 : 0 ≤ length) :
    ∃ rows ops,
      serverLog put get ainit lastTick fromTs length gran queryFn nChans
          persistCount = .ok (rows, ops) ∧
        (rows.length : Int) ≤ length ∧
        (rows.length : Int) ≤ max 0 ((lastTick - fromTs).tdiv gran) ∧
        (min length ((lastTick - fromTs).tdiv gran) ≤ 0 →
          rows = [] ∧ ops = 0) := by
  unfold serverLog
  rw [if_neg (by simp [h1]), if_neg (by omega), if_neg (by simp [h3]),
    if_neg (by omega)]
  set maxLength := (lastTick - fromTs).tdiv gran with hm
  set len2 := if length > maxLength then maxLength else length with hl
  have hlen2 : len2 = min length maxLength := by
    rw [hl]
    rcases le_or_lt length maxLength with h | h
    · rw [if_neg (by omega), min_eq_left h]
    · rw [if_pos h, min_eq_right (le_of_lt h)]
  by_cases hz : len2 ≤ 0
  · rw [if_pos hz]
    exact ⟨[], 0, rfl, by simpa using h4, by simp, fun _ => ⟨rfl, rfl⟩⟩
  · rw [if_neg hz]
    refine ⟨_, _, rfl, ?_, ?_, ?_⟩
    · rw [buildRows_length]
      have : (len2.toNat : Int) = len2 := Int.toNat_of_nonneg (by omega)
      rw [this]
      omega
    · rw [buildRows_length]
      have : (len2.toNat : Int) = len2 := Int.toNat_of_nonneg (by omega)
      rw [this]
      have : len2 ≤ maxLength := by omega
      exact le_max_of_le_right this
    · intro hmin
      omega

/-- Witness for C6 with a unit aggregator, lastTick = 120, from = 0,
length = 1, gran = 60. -/
theorem log_rows_clamped_witness :
    (0 : Int).tmod 60 = 0 ∧ (1 : Int) ≤ 60 ∧ (60 : Int).tmod 60 = 0 ∧
      (0 : Int) ≤ 1 ∧
      (∃ rows ops,
        serverLog (fun (_ : Unit) _ => ()) (fun _ => []) () 120 0 1 60
            (fun _ => []) 0 0 = .ok (rows, ops) ∧
          (rows.length : Int) ≤ 1 ∧
          (rows.length : Int) ≤ max 0 ((120 - 0 : Int).tdiv 60) ∧
          (min 1 ((120 - 0 : Int).tdiv 60) ≤ 0 → rows = [] ∧ ops = 0)) :=
  ⟨by decide, by decide, by decide, by decide,
    log_rows_clamped (fun (_ : Unit) _ => ()) (fun _ => []) () 120 0 1 60
      (fun _ => []) 0 0 (by decide) (by decide) (by decide) (by decide)⟩

/-- C7: LiveLog on an entry returns 600 rows in chronological order — row k
holds the ring slots (live_ptr + k) mod 600 of the requested channels —
together with start timestamp last_tick − 600; on a freshly created entry
(one whose metric has never been written) every row holds the channel
defaults. -/
theorem livelog_rows (e : EntryRing) (hp : e.ptr < 600) :
    (liveLogGo e).2 = e.lastTick - 600 ∧
      (liveLogGo e).1.length = 600 ∧
      (∀ k, k < 600 →
        (liveLogGo e).1[k]? =
          some (e.logs.map fun l => l ((e.ptr + k) % 600))) ∧
      (∀ (defaults : List Rat) (lastTick : Int),
        liveLogGo (freshEntry defaults lastTick) =
          (List.replicate 600 defaults, lastTick - 600)) := by
  refine ⟨rfl, ?_, ?_, ?_⟩
  · show (liveLogRows e.logs e.ptr).length = 600
    unfold liveLogRows
    simp
    omega
  · intro k hk
    show (liveLogRows e.logs e.ptr)[k]? = _
    unfold liveLogRows
    rcases lt_or_le k (600 - e.ptr) with h | h
    · rw [List.getElem?_append]
      rw [if_pos (by simpa using h)]
      have h2 : e.ptr + k < 600 := by omega
      simp [List.getElem?_range', h, Nat.mod_eq_of_lt h2]
    · rw [List.getElem?_append]
      rw [if_neg (by simp; omega)]
      have h2 : k - (600 - e.ptr) < e.ptr := by omega
      have h3 : (e.ptr + k) % 600 = k - (600 - e.ptr) := by
        have h4 : e.ptr + k = (k - (600 - e.ptr)) + 1 * 600 := by omega
        rw [h4, Nat.add_mul_mod_self_right, Nat.mod_eq_of_lt (by omega)]
      simp only [List.length_map, List.length_range']
      rw [List.getElem?_map, List.getElem?_range]
      · simp [h3]
      · exact h2
  · intro defaults lastTick
    unfold liveLogGo freshEntry liveLogRows
    simp only
    rw [Prod.mk.injEq]
    constructor
    · simp only [Nat.sub_zero, List.range_zero, List.map_nil, List.append_nil]
      have : ∀ i : Nat,
          (defaults.map fun d (_ : Nat) => d).map (fun l => l i) = defaults := by
        intro i
        rw [List.map_map]
        exact List.map_id defaults
      calc (List.range' 0 600).map
            (fun i => (defaults.map fun d (_ : Nat) => d).map fun l => l i)
          = (List.range' 0 600).map (fun _ => defaults) := by
            apply List.map_congr_left
            intro i _
            exact this i
        _ = List.replicate (List.range' 0 600).length defaults :=
            List.map_const _ _
        _ = List.replicate 600 defaults := by simp
    · rfl

/-- Witness for C7 at a one-channel entry with ptr = 0. -/
theorem livelog_rows_witness :
    (0 : Nat) < 600 ∧
      ((liveLogGo ⟨[fun _ => 0], 0, 700⟩).2 = 700 - 600 ∧
        (liveLogGo ⟨[fun _ => 0], 0, 700⟩).1.length = 600 ∧
        (∀ k, k < 600 →
          (liveLogGo ⟨[fun _ => 0], 0, 700⟩).1[k]? =
            some (([fun _ => (0 : Rat)]).map fun l => l ((0 + k) % 600))) ∧
        (∀ (defaults : List Rat) (lastTick : Int),
          liveLogGo (freshEntry defaults lastTick) =
            (List.replicate 600 defaults, lastTick - 600))) :=
  ⟨by decide, livelog_rows ⟨[fun _ => 0], 0, 700⟩ (by decide)⟩

theorem tmod_add_cancel (a b : Int) (ha : 0 ≤ a) (hb : 0 < b)
    (h : a.tmod b = 0) : (a + b).tmod b = 0 := by
  rw [Int.tmod_eq_emod ha (le_of_lt hb)] at h
  rw [Int.tmod_eq_emod (by omega) (le_of_lt hb)]
  have h2 : (a + b * 1) % b = a % b := Int.add_mul_emod_self_left a b 1
  rw [Int.mul_one] at h2
  rw [h2, h]

/-- C8: over any run of the writeTail loop from a state with aligned file
sizes, a record is written exactly when its timestamp is a multiple of 60
and strictly past lastWr; afterwards the data size stays a multiple of 8
and the index size a multiple of 16; every appended index entry has a
timestamp divisible by 60 and a non-negative position divisible by 8; an
index entry is appended exactly when the accepted record skips past the
expected next minute; and the timestamps the written values carry on disk
are strictly increasing (starting above the previous lastWr). -/
theorem writeTail_invariants (tail : List Record) (s : WtState)
    (h8 : s.dsize.tmod 8 = 0) (h16 : s.isize.tmod 16 = 0)
    (hd : 0 ≤ s.dsize) (hi : 0 ≤ s.isize) :
    ((writeTailRun s tail).state.dsize.tmod 8 = 0 ∧
        (writeTailRun s tail).state.isize.tmod 16 = 0 ∧
        (∀ p ∈ (writeTailRun s tail).idx,
          p.1.tmod 60 = 0 ∧ p.2.tmod 8 = 0 ∧ 0 ≤ p.2) ∧
        List.Chain' (· < ·) (s.lastWr :: (writeTailRun s tail).tss)) ∧
      (∀ (s2 : WtState) (r : Record),
        (writeTailStep s2 r).2.1 = none ↔
          (r.ts.tmod 60 ≠ 0 ∨ s2.lastWr ≥ r.ts)) ∧
      (∀ (s2 : WtState) (r : Record),
        (writeTailStep s2 r).2.2 ≠ none ↔
          ((r.ts.tmod 60 = 0 ∧ s2.lastWr < r.ts) ∧ s2.lastWr + 60 < r.ts)) := by
  refine ⟨?_, ?_, ?_⟩
  · induction tail generalizing s with
    | nil =>
      exact ⟨h8, h16, by simp [writeTailRun], by simp [writeTailRun]⟩
    | cons r rest ih =>
      by_cases hskip : r.ts.tmod 60 ≠ 0 ∨ s.lastWr ≥ r.ts
      · have hstep : writeTailStep s r = (s, none, none) := by
          unfold writeTailStep
          rw [if_pos hskip]
        simp only [writeTailRun, hstep]
        simpa using ih s h8 h16 hd hi
      · push_neg at hskip
        have hda : (s.dsize + 8).tmod 8 = 0 :=
          tmod_add_cancel s.dsize 8 hd (by norm_num) h8
        by_cases hjump : r.ts > s.lastWr + 60
        · have hstep : writeTailStep s r =
              (⟨s.dsize + 8, s.isize + 16, r.ts⟩,
                some (r.value, r.ts), some (r.ts, s.dsize + 8 - 8)) := by
            unfold writeTailStep
            rw [if_neg (by push_neg; exact hskip), if_pos hjump]
          simp only [writeTailRun, hstep]
          have hia : (s.isize + 16).tmod 16 = 0 :=
            tmod_add_cancel s.isize 16 hi (by norm_num) h16
          have ih2 := ih ⟨s.dsize + 8, s.isize + 16, r.ts⟩
            hda hia (by simp; omega) (by simp; omega)
          refine ⟨ih2.1, ih2.2.1, ?_, ?_⟩
          · intro p hp
            simp at hp
            rcases hp with hp | hp
            · rw [hp]
              exact ⟨hskip.1, h8, hd⟩
            · exact ih2.2.2.1 p hp
          · show List.Chain' (· < ·)
              (s.lastWr :: r.ts :: (writeTailRun ⟨s.dsize + 8, s.isize + 16, r.ts⟩ rest).tss)
            rw [List.chain'_cons]
            exact ⟨by omega, ih2.2.2.2⟩
        · have hstep : writeTailStep s r =
              (⟨s.dsize + 8, s.isize, s.lastWr + 60⟩,
                some (r.value, s.lastWr + 60), none) := by
            unfold writeTailStep
            rw [if_neg (by push_neg; exact hskip), if_neg hjump]
          simp only [writeTailRun, hstep]
          have ih2 := ih ⟨s.dsize + 8, s.isize, s.lastWr + 60⟩
            hda h16 (by simp; omega) hi
          refine ⟨ih2.1, ih2.2.1, ?_, ?_⟩
          · intro p hp
            simp at hp
            exact ih2.2.2.1 p hp
          · show List.Chain' (· < ·)
              (s.lastWr :: (s.lastWr + 60) :: (writeTailRun ⟨s.dsize + 8, s.isize, s.lastWr + 60⟩ rest).tss)
            rw [List.chain'_cons]
            exact ⟨by omega, ih2.2.2.2⟩
  · intro s2 r
    unfold writeTailStep
    by_cases hc : r.ts.tmod 60 ≠ 0 ∨ s2.lastWr ≥ r.ts
    · rw [if_pos hc]
      simpa using hc
    · rw [if_neg hc]
      push_neg at hc
      by_cases hj : r.ts > s2.lastWr + 60
      · rw [if_pos hj]
        simp
        omega
      · rw [if_neg hj]
        simp
        omega
  · intro s2 r
    unfold writeTailStep
    by_cases hc : r.ts.tmod 60 ≠ 0 ∨ s2.lastWr ≥ r.ts
    · rw [if_pos hc]
      simp
      rcases hc with hc | hc
      · intro h1
        exact absurd h1 hc
      · intro _ h2
        omega
    · rw [if_neg hc]
      push_neg at hc
      by_cases hj : r.ts > s2.lastWr + 60
      · rw [if_pos hj]
        simp
        exact ⟨⟨hc.1, hc.2⟩, by omega⟩
      · rw [if_neg hj]
        simp
        intro h1 h2
        omega

/-- Witness for C8: two records, one contiguous and one skipping ahead,
from an empty pair of files. -/
theorem writeTail_invariants_witness :
    (0 : Int).tmod 8 = 0 ∧ (0 : Int).tmod 16 = 0 ∧ (0 : Int) ≤ 0 ∧
      (0 : Int) ≤ 0 ∧
      (((writeTailRun ⟨0, 0, 0⟩ [⟨60, 1⟩, ⟨300, 2⟩]).state.dsize.tmod 8 = 0 ∧
          (writeTailRun ⟨0, 0, 0⟩ [⟨60, 1⟩, ⟨300, 2⟩]).state.isize.tmod 16 = 0 ∧
          (∀ p ∈ (writeTailRun ⟨0, 0, 0⟩ [⟨60, 1⟩, ⟨300, 2⟩]).idx,
            p.1.tmod 60 = 0 ∧ p.2.tmod 8 = 0 ∧ 0 ≤ p.2) ∧
          List.Chain' (· < ·)
            ((0 : Int) :: (writeTailRun ⟨0, 0, 0⟩ [⟨60, 1⟩, ⟨300, 2⟩]).tss)) ∧
        (∀ (s2 : WtState) (r : Record),
          (writeTailStep s2 r).2.1 = none ↔
            (r.ts.tmod 60 ≠ 0 ∨ s2.lastWr ≥ r.ts)) ∧
        (∀ (s2 : WtState) (r : Record),
          (writeTailStep s2 r).2.2 ≠ none ↔
            ((r.ts.tmod 60 = 0 ∧ s2.lastWr < r.ts) ∧ s2.lastWr + 60 < r.ts))) :=
  ⟨by decide, by decide, by decide, by decide,
    writeTail_invariants [⟨60, 1⟩, ⟨300, 2⟩] ⟨0, 0, 0⟩ (by decide) (by decide)
      (by decide) (by decide)⟩

theorem findIdxLoop_base (s : Snap) (ts : Int) (i : Nat) :
    findIdxLoop s ts i i = .ok i := by
  unfold findIdxLoop
  simp

/-- C3 is violated by the code: LatestBefore returns the LAST record of the
index segment found by the binary search, ignoring where ts falls inside
the segment.  Writing the records (60,1), (120,2), (180,3) into empty
files (exactly the writeTail loop from the state openFiles computes for
empty files, lastWr = -2^63 - tmod(-2^63, 60)) produces one index segment
(60, 0) with three data values; LatestBefore at ts = 60 then returns the
record with timestamp 180, which is strictly after the claim's bound
ts - (ts mod 60) = 60, instead of (60, 1). -/
theorem latestBefore_segment_end_bug :
    writeTailRun ⟨0, 0, -(2 ^ 63) - ((-(2 ^ 63) : Int)).tmod 60⟩
        [⟨60, 1⟩, ⟨120, 2⟩, ⟨180, 3⟩] =
      ⟨⟨24, 16, 180⟩, [1, 2, 3], [(60, 0)], [60, 120, 180]⟩ ∧
      latestBefore ⟨[], [(60, 0)], [1, 2, 3], 180⟩ 60 = .ok ⟨180, 3⟩ ∧
      ¬((180 : Int) ≤ 60 - (60 : Int).tmod 60) := by
  refine ⟨by decide, ?_, by decide⟩
  have hbase := findIdxLoop_base ⟨[], [(60, 0)], [1, 2, 3], 180⟩ 60 0
  simp [latestBefore, Snap.findTail, findTailLoop, Snap.findIdx,
    readIdxEntry, Snap.isize, Snap.dsize, readDat, hbase, Except.map]
  rfl

theorem scanName_sep (name rest : List UInt8)
    (h : ∀ c ∈ name, c ≠ 58 ∧ c ≠ 47 ∧ c ≠ 0) :
    scanName (name ++ 58 :: rest) = .ok (some name.length) := by
  induction name with
  | nil => simp [scanName]
  | cons c t ih =>
    have hc := h c (by simp)
    have ht : ∀ x ∈ t, x ≠ 58 ∧ x ≠ 47 ∧ x ≠ 0 := fun x hx => h x (by simp [hx])
    simp only [List.cons_append, scanName]
    rw [if_neg hc.1, if_neg (by push_neg; exact ⟨hc.2.1, hc.2.2⟩)]
    show Except.map (fun o => Option.map (fun x => x + 1) o)
      (scanName (t ++ 58 :: rest)) = Except.ok (some (c :: t).length)
    rw [ih ht]
    rfl

theorem scanName_take (m : List UInt8) :
    ∀ (n : Nat), scanName m = .ok (some n) →
      ∀ c ∈ m.take n, c ≠ 58 ∧ c ≠ 47 ∧ c ≠ 0 := by
  induction m with
  | nil => intro n h; simp [scanName] at h
  | cons ch t ih =>
    intro n h
    by_cases h1 : ch = 58
    · rw [scanName, if_pos h1] at h
      simp at h
      subst h
      simp
    · by_cases h2 : ch = 47 ∨ ch = 0
      · rw [scanName, if_neg h1, if_pos h2] at h
        simp at h
      · rw [scanName, if_neg h1, if_neg h2] at h
        cases hst : scanName t with
        | error e => rw [hst] at h; simp [Except.map] at h
        | ok o =>
          rw [hst] at h
          cases o with
          | none => simp [Except.map] at h
          | some k =>
            simp [Except.map] at h
            subst h
            intro c hc
            simp [List.take_cons] at hc
            rcases hc with hc | hc
            · subst hc
              push_neg at h2
              exact ⟨h1, h2.1, h2.2⟩
            · exact ih k hst c hc

theorem findIdx_sep (v rest : List UInt8) (hv : ∀ c ∈ v, c ≠ 124) :
    (v ++ 124 :: rest).findIdx? (· = 124) = some v.length := by
  rw [List.findIdx?_append]
  have h1 : v.findIdx? (· = 124) = none := by
    rw [List.findIdx?_eq_none_iff]
    intro x hx
    simp [hv x hx]
  rw [h1]
  simp

/-- C4: every well-formed wire line NAME ':' VALUE '|' TYPE with optional
'|@' RATE — NAME non-empty without ':', '/', NUL; VALUE a non-empty
float-parsing token without '|'; TYPE one of c, g, a, ms; RATE parsing as
a strictly positive float — parses to the Metric carrying exactly those
fields, with sample rate 1 when the rate part is absent.  In particular
"foo:3|c" parses to Metric{name "foo", Counter, 3, 1} (the concrete bytes
are checked in the witness). -/
theorem parseMetric_wellformed (pf : List UInt8 → Option Rat)
    (name valueStr : List UInt8) (v : Rat)
    (hname : name ≠ [])
    (hnchars : ∀ c ∈ name, c ≠ 58 ∧ c ≠ 47 ∧ c ≠ 0)
    (hvne : valueStr ≠ [])
    (hvbar : ∀ c ∈ valueStr, c ≠ 124)
    (hpv : pf valueStr = some v) :
    (∀ typStr typ, (typStr, typ) ∈ typeTable →
      parseMetric pf (name ++ 58 :: (valueStr ++ 124 :: typStr)) =
        .ok ⟨name, typ, v, 1⟩) ∧
      (∀ typStr typ rateStr s, (typStr, typ) ∈ typeTable →
        pf rateStr = some s → 0 < s →
        parseMetric pf
            (name ++ 58 :: (valueStr ++ 124 :: (typStr ++ 124 :: 64 :: rateStr))) =
          .ok ⟨name, typ, v, s⟩) := by
  have key : ∀ m3 : List UInt8, m3 ≠ [] →
      parseMetric pf (name ++ 58 :: (valueStr ++ 124 :: m3)) =
        parseTypeRate pf name v m3 := by
    intro m3 hm3
    have hscan := scanName_sep name (valueStr ++ 124 :: m3) hnchars
    have hfind := findIdx_sep valueStr m3 hvbar
    have heq : name ++ 58 :: (valueStr ++ 124 :: m3) =
        (name ++ [58]) ++ (valueStr ++ 124 :: m3) := by simp
    have htake : (name ++ 58 :: (valueStr ++ 124 :: m3)).take name.length =
        name := List.take_left name _
    have hdrop : (name ++ 58 :: (valueStr ++ 124 :: m3)).drop (name.length + 1) =
        valueStr ++ 124 :: m3 := by
      rw [heq, List.drop_left' (by simp)]
    have htake2 : (valueStr ++ 124 :: m3).take valueStr.length = valueStr :=
      List.take_left valueStr _
    have hdrop2 : (valueStr ++ 124 :: m3).drop (valueStr.length + 1) = m3 := by
      have h : valueStr ++ 124 :: m3 = (valueStr ++ [124]) ++ m3 := by simp
      rw [h, List.drop_left' (by simp)]
    have h0 : ¬(name.length = 0) := by simpa using hname
    have hlen : (name ++ 58 :: (valueStr ++ 124 :: m3)).length =
        name.length + valueStr.length + m3.length + 2 := by
      simp
      omega
    have hlen2 : (valueStr ++ 124 :: m3).length =
        valueStr.length + m3.length + 1 := by
      simp
      omega
    have h1 : ¬(name.length = (name ++ 58 :: (valueStr ++ 124 :: m3)).length - 1) := by
      rw [hlen]
      have hv1 : 1 ≤ valueStr.length := by
        rcases valueStr with _ | ⟨a, t⟩
        · exact absurd rfl hvne
        · simp
      omega
    have h2 : ¬((some valueStr.length : Option Nat) = some 0) := by
      simp [List.length_eq_zero]
      exact hvne
    have h3 : ¬(valueStr.length = (valueStr ++ 124 :: m3).length - 1) := by
      rw [hlen2]
      have hm1 : 1 ≤ m3.length := by
        rcases m3 with _ | ⟨a, t⟩
        · exact absurd rfl hm3
        · simp
      omega
    unfold parseMetric
    rw [if_neg (by simp [hname])]
    rw [hscan]
    simp only [h0, h1, htake, hdrop, hfind, h2, h3, htake2, hpv, hdrop2,
      if_false, ite_false]
  constructor
  · intro typStr typ hmem
    simp [typeTable] at hmem
    rcases hmem with ⟨h1, h2⟩ | ⟨h1, h2⟩ | ⟨h1, h2⟩ | ⟨h1, h2⟩ <;>
      subst h1 <;> subst h2 <;>
      rw [key _ (by simp)] <;> rfl
  · intro typStr typ rateStr s hmem hps hspos
    simp [typeTable] at hmem
    have hns : ¬(s ≤ 0) := not_le.mpr hspos
    rcases hmem with ⟨h1, h2⟩ | ⟨h1, h2⟩ | ⟨h1, h2⟩ | ⟨h1, h2⟩ <;>
      subst h1 <;> subst h2 <;>
      rw [key _ (by simp)] <;>
      simp [parseTypeRate, typeOf, hps, hns]

/-- Witness for C4 at the line "foo:3|c" (bytes 102 111 111 58 51 124 99)
and its sampled variant "foo:3|c|@0.5". -/
theorem parseMetric_wellformed_witness :
    ([102, 111, 111] : List UInt8) ≠ [] ∧
      (∀ c ∈ ([102, 111, 111] : List UInt8), c ≠ 58 ∧ c ≠ 47 ∧ c ≠ 0) ∧
      ([51] : List UInt8) ≠ [] ∧
      (∀ c ∈ ([51] : List UInt8), c ≠ 124) ∧
      pfW [51] = some 3 ∧
      ((∀ typStr typ, (typStr, typ) ∈ typeTable →
        parseMetric pfW ([102, 111, 111] ++ 58 :: ([51] ++ 124 :: typStr)) =
          .ok ⟨[102, 111, 111], typ, 3, 1⟩) ∧
        (∀ typStr typ rateStr s, (typStr, typ) ∈ typeTable →
          pfW rateStr = some s → 0 < s →
          parseMetric pfW
              ([102, 111, 111] ++
                58 :: ([51] ++ 124 :: (typStr ++ 124 :: 64 :: rateStr))) =
            .ok ⟨[102, 111, 111], typ, 3, s⟩)) :=
  ⟨by decide, by decide, by decide, by decide, by decide,
    parseMetric_wellformed pfW [102, 111, 111] [51] 3 (by decide) (by decide)
      (by decide) (by decide) (by decide)⟩

theorem scanName_error (m : List UInt8) :
    ∀ e, scanName m = .error e → e = .nameInvalid := by
  induction m with
  | nil => intro e h; simp [scanName] at h
  | cons ch t ih =>
    intro e h
    by_cases h1 : ch = 58
    · rw [scanName, if_pos h1] at h
      simp at h
    · by_cases h2 : ch = 47 ∨ ch = 0
      · rw [scanName, if_neg h1, if_pos h2] at h
        simp at h
        exact h.symm
      · rw [scanName, if_neg h1, if_neg h2] at h
        cases hst : scanName t with
        | error e2 =>
          rw [hst] at h
          simp [Except.map] at h
          rw [← h]
          exact ih e2 hst
        | ok o =>
          rw [hst] at h
          simp [Except.map] at h

theorem parseTypeRate_cases (pf : List UInt8 → Option Rat)
    (name : List UInt8) (value : Rat) (m : List UInt8) :
    (∃ e, parseTypeRate pf name value m = .error e ∧
      (e = .typeInvalid ∨ e = .noSampling ∨ e = .samplingInvalid)) ∨
    (∃ typ sr, parseTypeRate pf name value m = .ok ⟨name, typ, value, sr⟩) := by
  unfold parseTypeRate
  dsimp only
  cases htyp : typeOf m ((m.findIdx? (· = 124)).getD m.length) with
  | none =>
    left
    exact ⟨.typeInvalid, rfl, .inl rfl⟩
  | some typ =>
    dsimp only
    by_cases hc1 : (m.findIdx? (· = 124)).getD m.length = m.length
    · right
      rw [if_pos hc1]
      exact ⟨typ, 1, rfl⟩
    · rw [if_neg hc1]
      by_cases hc2 : (m.findIdx? (· = 124)).getD m.length = m.length - 1
      · left
        rw [if_pos hc2]
        exact ⟨_, rfl, .inr (.inl rfl)⟩
      · rw [if_neg hc2]
        by_cases hc3 : m.getD ((m.findIdx? (· = 124)).getD m.length + 1) 0 ≠ 64
        · left
          rw [if_pos hc3]
          exact ⟨_, rfl, .inr (.inr rfl)⟩
        · rw [if_neg hc3]
          cases hpf : pf (m.drop ((m.findIdx? (· = 124)).getD m.length + 2)) with
          | none =>
            left
            exact ⟨_, rfl, .inr (.inr rfl)⟩
          | some s =>
            dsimp only
            by_cases hs : s ≤ 0
            · left
              rw [if_pos hs]
              exact ⟨_, rfl, .inr (.inr rfl)⟩
            · right
              rw [if_neg hs]
              exact ⟨typ, s, rfl⟩

/-- C10: for every input byte slice and every float parser, ParseMetric is
a total function whose result is either one of the eight enumerated parse
errors — name/type/value/sampling missing or invalid — or a Metric whose
name is non-empty and contains none of ':', '/', NUL and whose type is one
of the four kinds; no other outcome is possible. -/
theorem parseMetric_outcomes (pf : List UInt8 → Option Rat)
    (m : List UInt8) :
    (∃ e, parseMetric pf m = .error e ∧
      (e = .noName ∨ e = .noType ∨ e = .noValue ∨ e = .noSampling ∨
        e = .nameInvalid ∨ e = .typeInvalid ∨ e = .valueInvalid ∨
        e = .samplingInvalid)) ∨
    (∃ mt, parseMetric pf m = .ok mt ∧ mt.name ≠ [] ∧
      (∀ c ∈ mt.name, c ≠ 58 ∧ c ≠ 47 ∧ c ≠ 0) ∧
      (mt.type = .counter ∨ mt.type = .gauge ∨ mt.type = .avg ∨
        mt.type = .timer)) := by
  unfold parseMetric
  split
  · exact .inl ⟨_, rfl, by simp⟩
  next hm =>
    split
    next e heq =>
      have he := scanName_error m e heq
      subst he
      exact .inl ⟨_, rfl, by simp⟩
    · exact .inl ⟨_, rfl, by simp⟩
    next n hscan =>
      split
      · exact .inl ⟨_, rfl, by simp⟩
      next hn0 =>
        split
        · exact .inl ⟨_, rfl, by simp⟩
        next hn1 =>
          dsimp only
          split
          · exact .inl ⟨_, rfl, by simp⟩
          next hq =>
            split
            · exact .inl ⟨_, rfl, by simp⟩
            next k hfi =>
              split
              · exact .inl ⟨_, rfl, by simp⟩
              next hk =>
                split
                · exact .inl ⟨_, rfl, by simp⟩
                next value hpf =>
                  rcases parseTypeRate_cases pf (m.take n) value
                      ((m.drop (n + 1)).drop (k + 1)) with ⟨e, he, hcls⟩ |
                      ⟨typ, sr, hok⟩
                  · refine .inl ⟨e, he, ?_⟩
                    rcases hcls with h | h | h <;> subst h <;> simp
                  · refine .inr ⟨⟨m.take n, typ, value, sr⟩, hok, ?_, ?_, ?_⟩
                    · simp [List.take_eq_nil_iff]
                      push_neg
                      exact ⟨hn0, hm⟩
                    · exact scanName_take m n hscan
                    · cases typ
                      · exact .inl rfl
                      · exact .inr (.inl rfl)
                      · exact .inr (.inr (.inl rfl))
                      · exact .inr (.inr (.inr rfl))

theorem wsum_cons (p : Rat × Rat) (l : List (Rat × Rat)) :
    wsum (p :: l) = p.2 + wsum l := by
  simp [wsum]

theorem wsum_pos (l : List (Rat × Rat)) (hne : l ≠ [])
    (hpos : ∀ p ∈ l, 0 < p.2) : 0 < wsum l := by
  induction l with
  | nil => exact absurd rfl hne
  | cons p t ih =>
    rw [wsum_cons]
    have hp := hpos p (by simp)
    rcases eq_or_ne t [] with h | h
    · subst h
      simpa [wsum] using hp
    · have ht := ih h (fun q hq => hpos q (by simp [hq]))
      linarith

theorem wsum_nonneg (l : List (Rat × Rat)) (hpos : ∀ p ∈ l, 0 ≤ p.2) :
    0 ≤ wsum l := by
  induction l with
  | nil => simp [wsum]
  | cons p t ih =>
    rw [wsum_cons]
    have hp := hpos p (by simp)
    have ht := ih (fun q hq => hpos q (by simp [hq]))
    linarith

theorem quartScan_eq_scan1 (n : Rat) (l : List (Rat × Rat)) :
    ∀ acc : QuartAcc,
      quartScan n l acc =
        ⟨acc.m + wsum l,
         scan1 (n * (1/4)) l acc.m acc.q1,
         scan1 (n * (1/2)) l acc.m acc.q2,
         scan1 (n * (3/4)) l acc.m acc.q3⟩ := by
  induction l with
  | nil => intro acc; simp [quartScan, scan1, wsum]
  | cons p t ih =>
    intro acc
    rcases p with ⟨v, c⟩
    rw [show ((v, c) :: t : List (Rat × Rat)) = (v, c) :: t from rfl]
    rw [quartScan, ih, wsum_cons]
    refine QuartAcc.mk.injEq .. ▸ ?_
    constructor
    · simp
      ring
    · constructor
      · rfl
      · exact ⟨rfl, rfl⟩

theorem scan1_stable (t : Rat) (l : List (Rat × Rat)) :
    ∀ (m acc : Rat), t ≤ m → (∀ p ∈ l, 0 ≤ p.2) →
      scan1 t l m acc = acc := by
  induction l with
  | nil => intro m acc _ _; rfl
  | cons p rest ih =>
    intro m acc hm hpos
    rcases p with ⟨v, c⟩
    rw [scan1]
    have hc : 0 ≤ c := hpos (v, c) (by simp)
    rw [if_neg (by push_neg; intro _; linarith)]
    exact ih (m + c) acc (by linarith) (fun q hq => hpos q (by simp [hq]))

theorem scan1_hits (t : Rat) (l : List (Rat × Rat)) :
    ∀ (m acc : Rat), m < t → t ≤ m + wsum l → (∀ p ∈ l, 0 < p.2) →
      ∃ v, firstCross t m l = some v ∧ scan1 t l m acc = v := by
  induction l with
  | nil =>
    intro m acc hm hr _
    rw [wsum] at hr
    simp at hr
    linarith
  | cons p rest ih =>
    intro m acc hm hr hpos
    rcases p with ⟨v, c⟩
    rw [wsum_cons] at hr
    by_cases hcross : t ≤ m + c
    · refine ⟨v, by rw [firstCross, if_pos hcross], ?_⟩
      rw [scan1, if_pos ⟨hcross, hm⟩]
      exact scan1_stable t rest (m + c) v hcross
        (fun q hq => le_of_lt (hpos q (by simp [hq])))
    · rw [firstCross, if_neg hcross, scan1, if_neg (by push_neg; intro h; exact absurd h hcross)]
      exact ih (m + c) acc (by linarith) (by simp at hr ⊢; linarith)
        (fun q hq => hpos q (by simp [hq]))

theorem sortPairs_perm (l : List (Rat × Rat)) : List.Perm (sortPairs l) l :=
  List.mergeSort_perm l _

theorem sortPairs_pairwise (l : List (Rat × Rat)) :
    (sortPairs l).Pairwise (fun p q => p.1 ≤ q.1) := by
  have h := @List.sorted_mergeSort (Rat × Rat)
    (fun p q => decide (p.1 ≤ q.1))
    (by intro a b c hab hbc; simp at *; exact le_trans hab hbc)
    (by intro a b; simp [le_total]) l
  exact h.imp (by intro a b hab; simpa using hab)

theorem wsum_perm (l1 l2 : List (Rat × Rat)) (h : List.Perm l1 l2) :
    wsum l1 = wsum l2 :=
  (h.map Prod.snd).sum_eq

theorem pairwise_head_le (p : Rat × Rat) (rest : List (Rat × Rat))
    (h : (p :: rest).Pairwise (fun a b : Rat × Rat => a.1 ≤ b.1)) :
    ∀ x ∈ p :: rest, p.1 ≤ x.1 := by
  intro x hx
  rcases List.mem_cons.mp hx with hx | hx
  · subst hx; exact le_refl _
  · exact List.rel_of_pairwise_cons h hx

theorem getLastI_cons_cons (a b : Rat × Rat) (l : List (Rat × Rat)) :
    (a :: b :: l).getLastI = (b :: l).getLastI := by
  simp [List.getLastI_eq_getLast?]

theorem pairwise_le_getLastI (l : List (Rat × Rat)) :
    l ≠ [] → l.Pairwise (fun a b : Rat × Rat => a.1 ≤ b.1) →
      (∀ x ∈ l, x.1 ≤ l.getLastI.1) ∧ l.getLastI ∈ l := by
  induction l with
  | nil => intro h; exact absurd rfl h
  | cons a rest ih =>
    intro _ hpw
    rcases rest with _ | ⟨b, t⟩
    · constructor
      · intro x hx
        simp at hx
        subst hx
        simp [List.getLastI_eq_getLast?]
      · simp [List.getLastI_eq_getLast?]
    · have ih2 := ih (by simp) (List.Pairwise.of_cons hpw)
      rw [getLastI_cons_cons]
      constructor
      · intro x hx
        rcases List.mem_cons.mp hx with hx | hx
        · subst hx
          exact List.rel_of_pairwise_cons hpw ih2.2
        · exact ih2.1 x hx
      · exact List.mem_cons_of_mem a ih2.2

/-- C2: for every non-empty weighted observation list with positive weights
and total weight N, timerStats returns [min, quart1, median, quart3, max, N]
where each quantile q in {1/4, 1/2, 3/4} is the first value of the
ascending-sorted list whose cumulative weight reaches or crosses qN
(firstCross); for the empty list the result is the NaN vector with count 0;
and a single observation of value 250 at sample rate 1/2 yields
min = max = median = 250 and cnt = 2 at the next tick. -/
theorem timerStats_quantiles :
    (∀ obs : List (Rat × Rat), obs ≠ [] → (∀ p ∈ obs, 0 < p.2) →
      ∃ mn q1 q2 q3 mx,
        timerStats obs =
          [some mn, some q1, some q2, some q3, some mx, some (wsum obs)] ∧
        mn ∈ obs.map Prod.fst ∧ mx ∈ obs.map Prod.fst ∧
        (∀ x ∈ obs.map Prod.fst, mn ≤ x ∧ x ≤ mx) ∧
        firstCross (wsum obs * (1/4)) 0 (sortPairs obs) = some q1 ∧
        firstCross (wsum obs * (1/2)) 0 (sortPairs obs) = some q2 ∧
        firstCross (wsum obs * (3/4)) 0 (sortPairs obs) = some q3) ∧
      timerStats [] = [none, none, none, none, none, some 0] ∧
      (TimerMetric.tick (TimerMetric.inject ⟨[], []⟩ 250 (1/2))).1 =
        [some 250, some 250, some 250, some 250, some 250, some 2] := by
  refine ⟨?_, rfl, ?_⟩
  · intro obs hne hpos
    have hperm := sortPairs_perm obs
    have hsne : sortPairs obs ≠ [] := by
      intro h
      rw [h] at hperm
      exact hne (List.Perm.eq_nil hperm.symm)
    have hspos : ∀ p ∈ sortPairs obs, 0 < p.2 := fun p hp =>
      hpos p (hperm.subset hp)
    have hw : wsum (sortPairs obs) = wsum obs := wsum_perm _ _ hperm
    have hn : 0 < wsum obs := wsum_pos obs hne hpos
    have hble : ∀ q : Rat, 0 < q → q ≤ 1 →
        wsum obs * q ≤ 0 + wsum (sortPairs obs) := by
      intro q hq hq1
      rw [hw, zero_add]
      nlinarith
    obtain ⟨v1, hf1, hs1⟩ := scan1_hits (wsum obs * (1/4)) (sortPairs obs) 0 0
      (by nlinarith) (hble (1/4) (by norm_num) (by norm_num)) hspos
    obtain ⟨v2, hf2, hs2⟩ := scan1_hits (wsum obs * (1/2)) (sortPairs obs) 0 0
      (by nlinarith) (hble (1/2) (by norm_num) (by norm_num)) hspos
    obtain ⟨v3, hf3, hs3⟩ := scan1_hits (wsum obs * (3/4)) (sortPairs obs) 0 0
      (by nlinarith) (hble (3/4) (by norm_num) (by norm_num)) hspos
    have hlast := pairwise_le_getLastI (sortPairs obs) hsne (sortPairs_pairwise _)
    rcases obs with _ | ⟨p0, t0⟩
    · exact absurd rfl hne
    · refine ⟨(sortPairs (p0 :: t0)).headI.1, v1, v2, v3,
        (sortPairs (p0 :: t0)).getLastI.1, ?_, ?_, ?_, ?_, hf1, hf2, hf3⟩
      · have hTS : timerStats (p0 :: t0) =
            [some (sortPairs (p0 :: t0)).headI.1,
             some (quartScan (wsum (p0 :: t0)) (sortPairs (p0 :: t0))
               ⟨0, 0, 0, 0⟩).q1,
             some (quartScan (wsum (p0 :: t0)) (sortPairs (p0 :: t0))
               ⟨0, 0, 0, 0⟩).q2,
             some (quartScan (wsum (p0 :: t0)) (sortPairs (p0 :: t0))
               ⟨0, 0, 0, 0⟩).q3,
             some (sortPairs (p0 :: t0)).getLastI.1,
             some (wsum (p0 :: t0))] := rfl
        rw [hTS, quartScan_eq_scan1]
        simp only []
        rw [hs1, hs2, hs3]
      · have hhead : (sortPairs (p0 :: t0)).headI ∈ sortPairs (p0 :: t0) := by
          rcases hs : sortPairs (p0 :: t0) with _ | ⟨q0, qt⟩
          · exact absurd hs hsne
          · simp
        exact List.mem_map_of_mem Prod.fst (hperm.subset hhead)
      · exact List.mem_map_of_mem Prod.fst (hperm.subset hlast.2)
      · intro x hx
        obtain ⟨p, hp, rfl⟩ := List.mem_map.mp hx
        have hps : p ∈ sortPairs (p0 :: t0) := hperm.symm.subset hp
        constructor
        · rcases hs : sortPairs (p0 :: t0) with _ | ⟨q0, qt⟩
          · exact absurd hs hsne
          · rw [hs] at hps
            have hpw := sortPairs_pairwise (p0 :: t0)
            rw [hs] at hpw
            simpa using pairwise_head_le q0 qt hpw p hps
        · exact hlast.1 p hps
  · have hsort : sortPairs [((250 : Rat), (2 : Rat))] = [(250, 2)] := by
      unfold sortPairs
      exact List.mergeSort_of_sorted (by simp)
    have hstep : (TimerMetric.inject ⟨[], []⟩ 250 (1/2)) =
        (⟨[((250 : Rat), (2 : Rat))], []⟩ : TimerMetric) := by
      unfold TimerMetric.inject
      norm_num
    rw [hstep]
    show timerStats [(250, 2)] = _
    have hTS : timerStats [((250 : Rat), (2 : Rat))] =
        [some (sortPairs [((250 : Rat), (2 : Rat))]).headI.1,
         some (quartScan (wsum [((250 : Rat), (2 : Rat))])
           (sortPairs [((250 : Rat), (2 : Rat))]) ⟨0, 0, 0, 0⟩).q1,
         some (quartScan (wsum [((250 : Rat), (2 : Rat))])
           (sortPairs [((250 : Rat), (2 : Rat))]) ⟨0, 0, 0, 0⟩).q2,
         some (quartScan (wsum [((250 : Rat), (2 : Rat))])
           (sortPairs [((250 : Rat), (2 : Rat))]) ⟨0, 0, 0, 0⟩).q3,
         some (sortPairs [((250 : Rat), (2 : Rat))]).getLastI.1,
         some (wsum [((250 : Rat), (2 : Rat))])] := rfl
    rw [hTS, hsort]
    norm_num [quartScan, wsum, List.getLastI_eq_getLast?]

/-- Witness for C2 at the single observation (value 250, weight 2). -/
theorem timerStats_quantiles_witness :
    ([((250 : Rat), 2)] : List (Rat × Rat)) ≠ [] ∧
      (∀ p ∈ ([((250 : Rat), 2)] : List (Rat × Rat)), 0 < p.2) ∧
      (∃ mn q1 q2 q3 mx,
        timerStats [((250 : Rat), 2)] =
          [some mn, some q1, some q2, some q3, some mx,
            some (wsum [((250 : Rat), 2)])] ∧
        mn ∈ ([((250 : Rat), 2)] : List (Rat × Rat)).map Prod.fst ∧
        mx ∈ ([((250 : Rat), 2)] : List (Rat × Rat)).map Prod.fst ∧
        (∀ x ∈ ([((250 : Rat), 2)] : List (Rat × Rat)).map Prod.fst,
          mn ≤ x ∧ x ≤ mx) ∧
        firstCross (wsum [((250 : Rat), 2)] * (1/4)) 0
          (sortPairs [((250 : Rat), 2)]) = some q1 ∧
        firstCross (wsum [((250 : Rat), 2)] * (1/2)) 0
          (sortPairs [((250 : Rat), 2)]) = some q2 ∧
        firstCross (wsum [((250 : Rat), 2)] * (3/4)) 0
          (sortPairs [((250 : Rat), 2)]) = some q3) :=
  ⟨by decide, by decide,
    timerStats_quantiles.1 [((250 : Rat), 2)] (by decide) (by decide)⟩

end StatsdV
